import Mathlib

/-
Verification of the PyNN lazy parameter evaluation engine.

The repository's `pyNN.parameters` / `lazyarray` implementation is not part
of the source tree available here (only its unit tests are), so the data
model and operations below are modelled from the specification (spec.md
sections 3-7), with the unit tests in
`test/unittests/test_parameters.py` pinning the concrete behaviour.

Conventions of the embedding:
- array elements are rationals (ℚ); the numeric not-a-number fill value used
  by `ParameterSpace.expand` is modelled by `none` in `Option ℚ`;
- numpy arrays are Lean lists (1-D) or lists of lists (2-D, row major);
- stateful operations (in-place operator variants, `ParameterSpace.evaluate`
  storing concrete values, random-number streams) are modelled by explicit
  state passing: a mutating method becomes a function returning the updated
  object, and random draws thread an explicit stream state;
- fallible operations return `Except`.
-/

set_option maxHeartbeats 1000000

/-! ## Module-level helper simplify (spec section 4.2) -/

namespace PyNNSimplify

/-- Modelled from the spec: the concrete values `simplify` can receive —
a scalar, a numpy array (`nparray`), or a plain Python list (`pylist`).
The distinction between numpy arrays and plain lists is observable in the
code's behaviour (test_simplify), so it is kept in the model. -/
inductive PyVal where
  | scalar (c : ℚ)
  | nparray (l : List ℚ)
  | pylist (l : List ℚ)
deriving DecidableEq

/-- Modelled from the spec: module-level helper `simplify(value)` of
`pyNN.parameters` (absent from src). Per test_simplify, only numpy arrays
whose elements are all equal collapse to the repeated scalar; scalars,
plain Python lists and non-uniform arrays are returned unchanged. -/
def simplify : PyVal → PyVal
  | .scalar c => .scalar c
  | .nparray (x :: xs) =>
      if xs.all (fun y => y == x) then .scalar x else .nparray (x :: xs)
  | .nparray [] => .nparray []
  | .pylist l => .pylist l

end PyNNSimplify

/-! ## ArrayParameter equality (spec section 3, structured sequence value) -/

namespace PyNNArrayParam

/-- Modelled from the spec: `ArrayParameter`, an immutable fixed-length
numeric sequence treated as a single structured parameter value. -/
structure ArrayParameter where
  value : List ℚ
deriving DecidableEq

/-- Modelled from the spec: the kinds of right-hand operand an
`ArrayParameter.__eq__` call can receive — another `ArrayParameter`, a numpy
array of `ArrayParameter`s, a plain Python list of numbers, or a scalar. -/
inductive APOperand where
  | ap (b : ArrayParameter)
  | nparrayAP (l : List ArrayParameter)
  | pylist (l : List ℚ)
  | scalar (c : ℚ)

/-- Result type of a Python `==`: either a single boolean or (for a numpy
array operand) an elementwise boolean array. -/
inductive EqResult where
  | single (b : Bool)
  | elementwise (bs : List Bool)
deriving DecidableEq

/-- Modelled from the spec: `ArrayParameter.__eq__` (pyNN.parameters,
absent from src). Equality compares by content against another
`ArrayParameter`; against a numpy array of `ArrayParameter`s it is
performed elementwise; against any other value (plain list, scalar) it is
`False` (test_equality). -/
def ArrayParameter.eq (a : ArrayParameter) : APOperand → EqResult
  | .ap b => .single (a.value == b.value)
  | .nparrayAP l => .elementwise (l.map (fun b => a.value == b.value))
  | .pylist _ => .single false
  | .scalar _ => .single false

end PyNNArrayParam

/-! ## Random-distribution base values and by_column (spec section 5) -/

namespace PyNNRandom

/-- Modelled from the spec: the deterministic random-number stream of the
tests' MockRNG — drawing n values returns the next n values of an
arithmetic sequence and advances the stream position. -/
structure RNGState where
  start : ℚ
deriving DecidableEq

/-- Draw `n` values from the stream: returns the values and the advanced
stream state. -/
def drawN (s : RNGState) (n : ℕ) : List ℚ × RNGState :=
  ((List.range n).map (fun k => s.start + k), ⟨s.start + n⟩)

/-- Modelled from the spec: a random-distribution handle exposes a draw
operation and a parallel-safety flag (spec section 6, collaborator
contract). -/
structure RandomDistribution where
  parallelSafe : Bool

/-- Modelled from the spec: a Lazy Array whose base value is a
random-distribution handle, with a 2-D shape (`nrows` rows, `ncols`
columns). Pending operations are not modelled here: the claim under
verification concerns the drawing discipline of the base value. -/
structure RandArray where
  dist : RandomDistribution
  nrows : ℕ
  ncols : ℕ

/-- The rows of a column that a worker of rank `rank` among `np` workers
owns, under the cyclic partition used when a non-parallel-safe
distribution draws only its own subset. -/
def ownRows (m rank np : ℕ) : List ℕ :=
  (List.range m).filter (fun r => r % np == rank)

/-- Modelled from the spec (section 5): the column loop of
`larray.by_column` for a random-distribution base value. `sel` is the
per-column mask (true = column is yielded). When the distribution is
parallel-safe, every worker draws the entire column's worth of values for
every column — also for columns the mask discards — so the stream position
stays synchronised and the drawn values are independent of the worker
configuration. When it is not parallel-safe, a worker draws only the values
its own row partition needs, for selected columns only. -/
def byColumnGo (safe : Bool) (m rank np : ℕ) : List Bool → RNGState → List (List ℚ)
  | [], _ => []
  | sel :: rest, s =>
      if safe then
        match drawN s m with
        | (col, s') =>
            if sel then col :: byColumnGo safe m rank np rest s'
            else byColumnGo safe m rank np rest s'
      else
        if sel then
          match drawN s (ownRows m rank np).length with
          | (col, s') => col :: byColumnGo safe m rank np rest s'
        else byColumnGo safe m rank np rest s

/-- Modelled from the spec: `larray.by_column(mask)` for a
random-distribution base value, computed by the worker of rank `rank`
among `np` workers with initial stream state `s`. A missing mask selects
every column. -/
def RandArray.byColumn (a : RandArray) (mask : Option (List Bool))
    (rank np : ℕ) (s : RNGState) : List (List ℚ) :=
  byColumnGo a.dist.parallelSafe a.nrows rank np
    (mask.getD (List.replicate a.ncols true)) s

end PyNNRandom

/-! ## Parameter Space (spec section 4.2) -/

namespace PyNNSpace

/-- An element value: `some q` is an ordinary number, `none` models the
numeric not-a-number fill value used by `expand`. -/
abbrev PVal := Option ℚ

/-- Target shape of a Parameter Space: 1-D `(n,)` or 2-D `(m, n)`. -/
inductive Shape where
  | one (n : ℕ)
  | two (m n : ℕ)
deriving DecidableEq

/-- A concrete (realized) value: a 1-D vector or a 2-D row-major matrix. -/
inductive CVal where
  | one (v : List PVal)
  | two (a : List (List PVal))
deriving DecidableEq

/-- Modelled from the spec: the base value of a Lazy Array held by a
Parameter Space — a scalar constant, a dense 1-D or 2-D array, or an index
function of one or two arguments. (Pending elementwise operations and
random bases are exercised by other claims and modelled in the dedicated
lazy-array development below.) -/
inductive PSBase where
  | const (c : ℚ)
  | dense1 (l : List PVal)
  | dense2 (a : List (List PVal))
  | func1 (f : ℕ → ℚ)
  | func2 (f : ℕ → ℕ → ℚ)

/-- The selected indices along the masked axis: a missing mask selects all
`dim` indices. -/
def maskIdx (dim : ℕ) : Option (List ℕ) → List ℕ
  | none => List.range dim
  | some l => l

/-- Modelled from the spec: realization of a base value over a shape with
an optional mask (an index list along the only axis of a 1-D shape, or
along the column axis of a 2-D shape, as exercised by the tests).
Constants broadcast, dense arrays are sliced, index functions are called
once per selected global coordinate. A base whose rank disagrees with the
shape is outside the well-formed states and realizes to an empty value. -/
def PSBase.eval (b : PSBase) (sh : Shape) (mask : Option (List ℕ)) : CVal :=
  match sh with
  | .one n =>
      let idx := maskIdx n mask
      match b with
      | .const c => .one (idx.map (fun _ => some c))
      | .dense1 l => .one (idx.map (fun i => l.getD i none))
      | .func1 f => .one (idx.map (fun i => some (f i)))
      | .dense2 _ => .one []
      | .func2 _ => .one []
  | .two m n =>
      let cols := maskIdx n mask
      match b with
      | .const c => .two ((List.range m).map (fun _ => cols.map (fun _ => some c)))
      | .dense2 a => .two ((List.range m).map (fun i => cols.map (fun j => (a.getD i []).getD j none)))
      | .func2 f => .two ((List.range m).map (fun i => cols.map (fun j => some (f i j))))
      | .dense1 _ => .two []
      | .func1 _ => .two []

/-- Modelled from the spec: a schema entry type — a numeric scalar type, a
structured-sequence type, or a nested schema mapping. -/
inductive SType where
  | numericT
  | seqT
  | nestedT (items : List (String × SType))

/-- A schema: a mapping from parameter name to expected type. -/
abbrev Schema := List (String × SType)

/-- Error taxonomy of the Parameter Space operations (spec section 7). -/
inductive PSError where
  | nonExistentParameter
  | invalidDimensions
  | valueError
  | shapeNotDefined
  | notYetEvaluated
  | notTwoDimensional
deriving DecidableEq

mutual

/-- Modelled from the spec: a Parameter Space — an ordered mapping from
name to Lazy Array or nested space, an optional schema, a shared optional
target shape, and the evaluation state: `none` before the first successful
`evaluate` call, `some cnt` (the number of selected indices) afterwards,
since `evaluate` realizes the contained arrays in place. -/
inductive PSpace where
  | mk (entries : PSEntries) (shape : Option Shape) (schema : Option Schema)
      (evalCount : Option ℕ)

/-- The ordered entries of a Parameter Space. -/
inductive PSEntries where
  | nil
  | cons (key : String) (e : PSEntry) (tl : PSEntries)

/-- One entry: a still-lazy array, an already-realized concrete value
(after `evaluate`), or a nested Parameter Space. -/
inductive PSEntry where
  | lazy (b : PSBase)
  | concrete (v : CVal)
  | nested (ps : PSpace)

end

def PSpace.entriesOf : PSpace → PSEntries
  | .mk es _ _ _ => es

def PSpace.shapeOf : PSpace → Option Shape
  | .mk _ sh _ _ => sh

def PSpace.schemaOf : PSpace → Option Schema
  | .mk _ _ sch _ => sch

def PSpace.evalCountOf : PSpace → Option ℕ
  | .mk _ _ _ cnt => cnt

def PSEntries.lookup : PSEntries → String → Option PSEntry
  | .nil, _ => none
  | .cons k e tl, key => if k == key then some e else tl.lookup key

def PSpace.lookup (ps : PSpace) (k : String) : Option PSEntry :=
  ps.entriesOf.lookup k

/-- Replace the value at an existing key in place, or append a new key at
the end (Python dict assignment). -/
def PSEntries.upsert : PSEntries → String → PSEntry → PSEntries
  | .nil, k, e => .cons k e .nil
  | .cons k' e' tl, k, e =>
      if k' == k then .cons k' e tl else .cons k' e' (tl.upsert k e)

/-- Modelled from the spec: the raw values `__setitem__` can receive that
the claims exercise — a scalar, a flat list of numbers, or an index
function. (Mapping-valued assignment, which creates a nested space, is not
needed by any claim.) -/
inductive Raw where
  | scalar (c : ℚ)
  | list (l : List ℚ)
  | func (f : ℕ → ℚ)

/-- Normalization of a raw value into a Parameter Space entry. -/
def Raw.toEntry : Raw → PSEntry
  | .scalar c => .lazy (.const c)
  | .list l => .lazy (.dense1 (l.map some))
  | .func f => .lazy (.func1 f)

/-- Dimension compatibility of a raw value with the space's shape: scalars
and index functions always fit; an explicit list must have exactly the
length of a 1-D shape and never fits a 2-D shape. A space whose shape is
still undefined accepts any value (the failure is deferred to
evaluation). -/
def checkDims (shape : Option Shape) : Raw → Bool
  | .scalar _ => true
  | .func _ => true
  | .list l =>
      match shape with
      | none => true
      | some (.one n) => l.length == n
      | some (.two _ _) => false

def schemaHasKey (s : Schema) (k : String) : Bool :=
  s.any (fun kv => kv.1 == k)

/-- Modelled from the spec: `ParameterSpace.__setitem__`. With a non-empty
schema, a key absent from the schema signals the nonexistent-parameter
error and a dimension-incompatible value signals the invalid-dimensions
error, both at assignment time; without a schema (or with an empty one) a
dimension-incompatible value signals the plain value error of Lazy Array
construction. -/
def PSpace.setItem (ps : PSpace) (k : String) (v : Raw) : Except PSError PSpace :=
  match ps with
  | .mk es shape sch cnt =>
      match sch with
      | some s =>
          if s.isEmpty then
            if checkDims shape v then .ok (.mk (es.upsert k v.toEntry) shape sch cnt)
            else .error .valueError
          else if schemaHasKey s k then
            if checkDims shape v then .ok (.mk (es.upsert k v.toEntry) shape sch cnt)
            else .error .invalidDimensions
          else .error .nonExistentParameter
      | none =>
          if checkDims shape v then .ok (.mk (es.upsert k v.toEntry) shape sch cnt)
          else .error .valueError

/-- The number of selected indices recorded by a successful evaluation:
the masked count of the only axis of a 1-D shape, or of the column axis of
a 2-D shape. -/
def Shape.evalCount (sh : Shape) (mask : Option (List ℕ)) : ℕ :=
  match sh with
  | .one n => (maskIdx n mask).length
  | .two _ n => (maskIdx n mask).length

mutual

/-- Modelled from the spec: `ParameterSpace.evaluate(mask)` — fails when
the shape is still undefined, otherwise realizes every contained Lazy
Array (recursively into nested spaces) with the same mask, in place, and
records that the space is now evaluated. -/
def PSpace.evaluate : PSpace → Option (List ℕ) → Except PSError PSpace
  | .mk es shape sch _, mask =>
      match shape with
      | none => .error .shapeNotDefined
      | some sh =>
          match PSEntries.evaluate es sh mask with
          | .ok es' => .ok (.mk es' shape sch (some (sh.evalCount mask)))
          | .error e => .error e

def PSEntries.evaluate : PSEntries → Shape → Option (List ℕ) → Except PSError PSEntries
  | .nil, _, _ => .ok .nil
  | .cons k e tl, sh, mask =>
      match PSEntry.evaluate e sh mask, PSEntries.evaluate tl sh mask with
      | .ok e', .ok tl' => .ok (.cons k e' tl')
      | .error err, _ => .error err
      | .ok _, .error err => .error err

def PSEntry.evaluate : PSEntry → Shape → Option (List ℕ) → Except PSError PSEntry
  | .lazy b, sh, mask => .ok (.concrete (b.eval sh mask))
  | .concrete v, _, _ => .ok (.concrete v)
  | .nested ps, _, mask =>
      match ps.evaluate mask with
      | .ok ps' => .ok (.nested ps')
      | .error err => .error err

end

/-- One realized row value: a single element, or a nested mapping for a
nested space. -/
inductive RowVal where
  | val (v : PVal)
  | sub (items : List (String × RowVal))

/-- One realized column value: the column vector of a key, or a nested
mapping for a nested space. -/
inductive ColVal where
  | vec (v : List PVal)
  | sub (items : List (String × ColVal))

/-- A realized dictionary value as returned by `as_dict`. -/
inductive DictVal where
  | val (v : CVal)
  | sub (items : List (String × DictVal))

/-- The element of a realized 1-D value at a row index. -/
def CVal.at1 (v : CVal) (r : ℕ) : PVal :=
  match v with
  | .one l => l.getD r none
  | .two _ => none

mutual

def PSpace.rowAt : PSpace → ℕ → List (String × RowVal)
  | .mk es _ _ _, r => PSEntries.rowAt es r

def PSEntries.rowAt : PSEntries → ℕ → List (String × RowVal)
  | .nil, _ => []
  | .cons k e tl, r => (k, PSEntry.rowAt e r) :: PSEntries.rowAt tl r

def PSEntry.rowAt : PSEntry → ℕ → RowVal
  | .concrete v, r => .val (v.at1 r)
  | .lazy _, _ => .val none
  | .nested ps, r => .sub (ps.rowAt r)

end

mutual

def PSpace.colAt : PSpace → ℕ → List (String × ColVal)
  | .mk es _ _ _, j => PSEntries.colAt es j

def PSEntries.colAt : PSEntries → ℕ → List (String × ColVal)
  | .nil, _ => []
  | .cons k e tl, j => (k, PSEntry.colAt e j) :: PSEntries.colAt tl j

def PSEntry.colAt : PSEntry → ℕ → ColVal
  | .concrete (.two a), j => .vec (a.map (fun row => row.getD j none))
  | .concrete (.one _), _ => .vec []
  | .lazy _, _ => .vec []
  | .nested ps, j => .sub (ps.colAt j)

end

/-- Modelled from the spec: row-wise iteration of a Parameter Space —
fails with the not-yet-evaluated error before the first `evaluate`, and
afterwards yields one mapping per selected row. -/
def PSpace.iterRows (ps : PSpace) : Except PSError (List (List (String × RowVal))) :=
  match ps.evalCountOf with
  | none => .error .notYetEvaluated
  | some cnt => .ok ((List.range cnt).map (fun r => ps.rowAt r))

/-- Modelled from the spec: `ParameterSpace.columns()` — fails with the
not-yet-evaluated error before the first `evaluate`, fails when the shape
is not 2-D, and otherwise yields one mapping per selected column. -/
def PSpace.columns (ps : PSpace) : Except PSError (List (List (String × ColVal))) :=
  match ps.evalCountOf with
  | none => .error .notYetEvaluated
  | some cnt =>
      match ps.shapeOf with
      | some (.two _ _) => .ok ((List.range cnt).map (fun j => ps.colAt j))
      | _ => .error .notTwoDimensional

mutual

/-- Modelled from the spec: `ParameterSpace.as_dict()` — requires prior
evaluation (recursively, for nested spaces) and fails with the
not-yet-evaluated error when any contained Lazy Array is still
unevaluated; otherwise returns the plain nested mapping of concrete
values. -/
def PSpace.asDict : PSpace → Except PSError DictVal
  | .mk es _ _ cnt =>
      match cnt with
      | none => .error .notYetEvaluated
      | some _ =>
          match PSEntries.asDict es with
          | .ok items => .ok (.sub items)
          | .error e => .error e

def PSEntries.asDict : PSEntries → Except PSError (List (String × DictVal))
  | .nil => .ok []
  | .cons k e tl =>
      match PSEntry.asDict e, PSEntries.asDict tl with
      | .ok v, .ok rest => .ok ((k, v) :: rest)
      | .error err, _ => .error err
      | .ok _, .error err => .error err

def PSEntry.asDict : PSEntry → Except PSError DictVal
  | .concrete v => .ok (.val v)
  | .lazy _ => .error .notYetEvaluated
  | .nested ps => ps.asDict

end

/-- The first position of `r` in `mask`, if any. -/
def firstIdx (mask : List ℕ) (r : ℕ) : Option ℕ :=
  match mask with
  | [] => none
  | a :: t => if a == r then some 0 else (firstIdx t r).map (fun i => i + 1)

/-- Modelled from the spec: the dense backing array produced by
`expand` — a new array of length `nn` filled with the not-a-number
sentinel, with the old value at position `i` written to position
`mask[i]` (numpy `new[mask] = old`). -/
def scatter (nn : ℕ) (mask : List ℕ) (l : List PVal) : List PVal :=
  (List.range nn).map (fun r =>
    match firstIdx mask r with
    | some i => l.getD i none
    | none => none)

mutual

/-- Modelled from the spec and test_expand: `ParameterSpace.expand` grows
the space's 1-D shape to `nn`. Dense-array-backed entries are repositioned
(old row i at new row mask[i], not-a-number elsewhere); constant and
index-function base values are left unchanged, so they realize over the
whole new shape; nested spaces are expanded recursively. -/
def PSpace.expand : PSpace → ℕ → List ℕ → PSpace
  | .mk es _ sch cnt, nn, mask => .mk (PSEntries.expand es nn mask) (some (.one nn)) sch cnt

def PSEntries.expand : PSEntries → ℕ → List ℕ → PSEntries
  | .nil, _, _ => .nil
  | .cons k e tl, nn, mask => .cons k (PSEntry.expand e nn mask) (PSEntries.expand tl nn mask)

def PSEntry.expand : PSEntry → ℕ → List ℕ → PSEntry
  | .lazy (.dense1 l), nn, mask => .lazy (.dense1 (scatter nn mask l))
  | .lazy b, _, _ => .lazy b
  | .concrete v, _, _ => .concrete v
  | .nested ps, nn, mask => .nested (ps.expand nn mask)

end

/-- Dot-joined nested key, as produced by `flatten` with a prefix. -/
def dotJoin (a b : String) : String := a ++ "." ++ b

/-- The non-nested entries of a Parameter Space, in order. -/
def PSEntries.leaves : PSEntries → PSEntries
  | .nil => .nil
  | .cons _ (.nested _) tl => tl.leaves
  | .cons k e tl => .cons k e (tl.leaves)

def PSEntries.toPairs : PSEntries → List (String × PSEntry)
  | .nil => []
  | .cons k e tl => (k, e) :: tl.toPairs

def PSEntries.upsertMany : PSEntries → List (String × PSEntry) → PSEntries
  | base, [] => base
  | base, (k, e) :: rest => (base.upsert k e).upsertMany rest

mutual

/-- The fully flattened entry list of a (nested) Parameter Space: its own
leaves first, then each nested space's flattened keys, nested spaces in
key order, later occurrences overwriting earlier ones. When `dotted` is
true nested keys are dot-joined with the parent key. -/
def PSpace.flatPairs : Bool → PSpace → List (String × PSEntry)
  | dotted, .mk es _ _ _ =>
      (PSEntries.leaves es).toPairs ++ PSEntries.nestedPairs dotted es

def PSEntries.nestedPairs : Bool → PSEntries → List (String × PSEntry)
  | _, .nil => []
  | dotted, .cons k (.nested ps) tl =>
      ((PSpace.flatPairs dotted ps).map
          (fun p => (if dotted then dotJoin k p.1 else p.1, p.2))) ++
        PSEntries.nestedPairs dotted tl
  | dotted, .cons _ _ tl => PSEntries.nestedPairs dotted tl

end

/-- Modelled from the spec: `ParameterSpace.flatten(with prefix or not)` —
recursively merges nested spaces' keys into the top level, removing the
nested keys themselves; top-level keys are processed first, then each
nested space's keys (nested spaces in key order), and on collision the
final occurrence wins. -/
def PSpace.flatten (dotted : Bool) : PSpace → PSpace
  | .mk es sh sch cnt =>
      .mk ((PSEntries.leaves es).upsertMany (PSEntries.nestedPairs dotted es)) sh sch cnt

/-- The hierarchical space of the flatten tests: top-level keys a, b, c and
a nested space under key d with inner keys a, b, c, e; the base values are
arbitrary. -/
def flattenExample (va vb vc da db dc de : PSBase) (sh : Option Shape) : PSpace :=
  .mk (.cons "a" (.lazy va) (.cons "b" (.lazy vb) (.cons "c" (.lazy vc)
        (.cons "d" (.nested (.mk (.cons "a" (.lazy da) (.cons "b" (.lazy db)
          (.cons "c" (.lazy dc) (.cons "e" (.lazy de) .nil)))) sh none none))
          .nil))))
      sh none none

/-- Lookup of a key after evaluating a space (used to state evaluated-value
equalities in the theorems below). -/
def evalLookup (ps : PSpace) (mask : Option (List ℕ)) (k : String) : Option PSEntry :=
  match ps.evaluate mask with
  | .ok ps' => ps'.lookup k
  | .error _ => none

/-- Lookup of a key inside a nested space after evaluating the outer
space. -/
def nestedEvalLookup (ps : PSpace) (mask : Option (List ℕ)) (k1 k2 : String) :
    Option PSEntry :=
  match ps.evaluate mask with
  | .ok ps' =>
      match ps'.lookup k1 with
      | some (.nested sub) => sub.lookup k2
      | _ => none
  | .error _ => none

end PyNNSpace

/-! ## Lazy Array (spec section 4.1) -/

namespace PyNNLazy

/-- A realized dense 2-D array, row major. -/
abbrev Mat := List (List ℚ)

/-- A constant broadcast over a 2-D shape. -/
def fillMat (m n : ℕ) (c : ℚ) : Mat := List.replicate m (List.replicate n c)

/-- An index function realized over a full 2-D shape. -/
def funcMat (m n : ℕ) (f : ℕ → ℕ → ℚ) : Mat :=
  (List.range m).map (fun i => (List.range n).map (fun j => f i j))

/-- Elementwise combination of two realized arrays. -/
def zipMat (f : ℚ → ℚ → ℚ) (x y : Mat) : Mat :=
  List.zipWith (List.zipWith f) x y

/-- Elementwise map over a realized array. -/
def mapMat (g : ℚ → ℚ) (x : Mat) : Mat := x.map (fun row => row.map g)

/-- Modelled from the spec: the base value of a deterministic Lazy Array —
a scalar constant, a dense array, or a two-argument index function.
(Random-distribution base values are modelled in the PyNNRandom
development above, since their evaluation threads a stream state.) -/
inductive Base where
  | const (c : ℚ)
  | dense (a : Mat)
  | func (f : ℕ → ℕ → ℚ)

/-- Per-axis selection of a mask: the full slice, an integer index list,
or a boolean array along the axis. -/
inductive Sel where
  | full
  | idxs (l : List ℕ)
  | bools (bs : List Bool)

/-- The global indices an axis selection picks out of a dimension. -/
def Sel.indices : Sel → ℕ → List ℕ
  | .full, dim => List.range dim
  | .idxs l, _ => l
  | .bools bs, dim => (List.range dim).filter (fun i => bs.getD i false)

/-- Validity of an axis selection for a dimension: index lists stay in
range, boolean arrays have exactly the axis's length. -/
def Sel.validb : Sel → ℕ → Bool
  | .full, _ => true
  | .idxs l, dim => l.all (fun i => decide (i < dim))
  | .bools bs, dim => bs.length == dim

/-- Numpy-style restriction of a realized dense array to the rows `ri` and
the columns `ci`: the elementwise restriction written arr.evaluate()[M] in
the spec, with per-axis selections interpreted as independent row and
column selections. -/
def restrict (a : Mat) (ri ci : List ℕ) : Mat :=
  ri.map (fun i => ci.map (fun j => (a.getD i []).getD j 0))

mutual

/-- Modelled from the spec: a Lazy Array — a base value, a fixed 2-D shape
set at construction, and an ordered list of pending elementwise
operations. -/
inductive LArr where
  | mk (base : Base) (m n : ℕ) (ops : Ops)

/-- The ordered list of pending operations of a Lazy Array. -/
inductive Ops where
  | nil
  | cons (hd : Op) (tl : Ops)

/-- One pending operation: a binary operator together with its operand — a
constant, a dense array, or a nested Lazy Array. -/
inductive Op where
  | withConst (f : ℚ → ℚ → ℚ) (k : ℚ)
  | withArray (f : ℚ → ℚ → ℚ) (a : Mat)
  | withLazy (f : ℚ → ℚ → ℚ) (other : LArr)

end

def LArr.baseOf : LArr → Base
  | .mk b _ _ _ => b

def LArr.nrows : LArr → ℕ
  | .mk _ m _ _ => m

def LArr.ncols : LArr → ℕ
  | .mk _ _ n _ => n

def LArr.opsOf : LArr → Ops
  | .mk _ _ _ ops => ops

def Ops.append : Ops → Ops → Ops
  | .nil, o => o
  | .cons h t, o => .cons h (t.append o)

/-- Realization of a base value over the full shape: constants broadcast,
dense arrays are returned as they are, index functions are called once per
coordinate. -/
def Base.eval : Base → ℕ → ℕ → Mat
  | .const c, m, n => fillMat m n c
  | .dense a, _, _ => a
  | .func f, m, n => funcMat m n f

mutual

/-- Modelled from the spec: full evaluation (mask of None) — realize the
base value over the full shape, then apply every pending operation in
order. -/
def LArr.eval : LArr → Mat
  | .mk b m n ops => Ops.apply ops (b.eval m n)

def Ops.apply : Ops → Mat → Mat
  | .nil, x => x
  | .cons op tl, x => Ops.apply tl (Op.app op x)

def Op.app : Op → Mat → Mat
  | .withConst f k, x => mapMat (fun v => f v k) x
  | .withArray f a, x => zipMat f x a
  | .withLazy f other, x => zipMat f x other.eval

end

/-- Realization of a base value restricted to the selected global
coordinates `ri` x `ci`: constants broadcast over the selected counts,
dense arrays are sliced, index functions are called once per selected
output coordinate. -/
def Base.evalIdx : Base → List ℕ → List ℕ → Mat
  | .const c, ri, ci => fillMat ri.length ci.length c
  | .dense a, ri, ci => restrict a ri ci
  | .func f, ri, ci => ri.map (fun i => ci.map (fun j => f i j))

mutual

/-- Modelled from the spec: masked evaluation — realize only the selected
elements of the base value, then apply every pending operation, with dense
and nested-lazy operands restricted to the same selected coordinates. -/
def LArr.evalMask : LArr → Sel → Sel → Mat
  | .mk b m n ops, rs, cs =>
      Ops.applyMask ops (b.evalIdx (rs.indices m) (cs.indices n)) rs cs m n

def Ops.applyMask : Ops → Mat → Sel → Sel → ℕ → ℕ → Mat
  | .nil, x, _, _, _, _ => x
  | .cons op tl, x, rs, cs, m, n =>
      Ops.applyMask tl (Op.appMask op x rs cs m n) rs cs m n

def Op.appMask : Op → Mat → Sel → Sel → ℕ → ℕ → Mat
  | .withConst f k, x, _, _, _, _ => mapMat (fun v => f v k) x
  | .withArray f a, x, rs, cs, m, n =>
      zipMat f x (restrict a (rs.indices m) (cs.indices n))
  | .withLazy f other, x, rs, cs, _, _ => zipMat f x (other.evalMask rs cs)

end

/-- Dimension well-formedness of a realized array. -/
def matWFb (a : Mat) (m n : ℕ) : Bool :=
  a.length == m && a.all (fun row => row.length == n)

/-- Dimension well-formedness of a realized array, as a proposition. -/
def matWF (a : Mat) (m n : ℕ) : Prop :=
  a.length = m ∧ ∀ row ∈ a, row.length = n

def Base.wfb : Base → ℕ → ℕ → Bool
  | .const _, _, _ => true
  | .dense a, m, n => matWFb a m n
  | .func _, _, _ => true

mutual

/-- Well-formedness of a Lazy Array: the dense base value matches the
declared shape and every pending operand agrees with it, recursively. -/
def LArr.wfb : LArr → Bool
  | .mk b m n ops => b.wfb m n && Ops.wfb ops m n

def Ops.wfb : Ops → ℕ → ℕ → Bool
  | .nil, _, _ => true
  | .cons op tl, m, n => Op.wfb op m n && Ops.wfb tl m n

def Op.wfb : Op → ℕ → ℕ → Bool
  | .withConst _ _, _, _ => true
  | .withArray _ a, m, n => matWFb a m n
  | .withLazy _ other, m, n => other.wfb && (other.nrows == m) && (other.ncols == n)

end

/-- The operand of an elementwise binary operator: a scalar, a dense
array, or another Lazy Array. -/
inductive Operand where
  | scalar (k : ℚ)
  | arr (a : Mat)
  | lazy (other : LArr)

/-- The pending-operation entry a combination appends for an operand. -/
def Operand.toOp (f : ℚ → ℚ → ℚ) : Operand → Op
  | .scalar k => .withConst f k
  | .arr a => .withArray f a
  | .lazy other => .withLazy f other

/-- The operand realized as a dense array of the receiver's shape. -/
def Operand.asMat : Operand → ℕ → ℕ → Mat
  | .scalar k, m, n => fillMat m n k
  | .arr a, _, _ => a
  | .lazy o, _, _ => o.eval

def Operand.wfb : Operand → ℕ → ℕ → Bool
  | .scalar _, _, _ => true
  | .arr a, m, n => matWFb a m n
  | .lazy o, m, n => o.wfb && (o.nrows == m) && (o.ncols == n)

/-- Modelled from the spec: a non-in-place elementwise binary operator on
a Lazy Array — returns a new Lazy Array with the same base value and the
operation list extended by one entry; the receiver is never modified (the
embedding is purely functional, mirroring that the Python operators build
a fresh array). Combining with another Lazy Array of a different shape
fails at combination time with the shape-mismatch (ValueError) error,
before and without any evaluation. -/
def LArr.combine : LArr → (ℚ → ℚ → ℚ) → Operand → Except String LArr
  | .mk b m n ops, f, .lazy other =>
      if other.nrows = m ∧ other.ncols = n then
        .ok (.mk b m n (ops.append (.cons (.withLazy f other) .nil)))
      else .error "shape mismatch: objects cannot be broadcast to a single shape"
  | .mk b m n ops, f, .scalar k =>
      .ok (.mk b m n (ops.append (.cons (.withConst f k) .nil)))
  | .mk b m n ops, f, .arr a =>
      .ok (.mk b m n (ops.append (.cons (.withArray f a) .nil)))

/-- Modelled from the spec: the in-place operator variant (compound
assignment with a scalar, as in m0 += k) — appends one operation to the
receiver's own operation list; the base value is untouched. -/
def LArr.iapply (la : LArr) (f : ℚ → ℚ → ℚ) (k : ℚ) : LArr :=
  match la with
  | .mk b m n ops => .mk b m n (ops.append (.cons (.withConst f k) .nil))

end PyNNLazy

/-!
## Theorems

General list lemmas first, then the claims, grouped by component.
-/

section ListLemmas

variable {α : Type} {β : Type} {γ : Type}

theorem getD_map_of_lt (g : α → β) (l : List α) (d : β) (d' : α) :
    ∀ i, i < l.length → (l.map g).getD i d = g (l.getD i d') := by
  induction l with
  | nil => intro i hi; simp at hi
  | cons a t ih =>
      intro i hi
      cases i with
      | zero => rfl
      | succ i' => exact ih i' (by simpa using hi)

theorem getD_replicate_of_lt (c : α) (d : α) :
    ∀ n i, i < n → (List.replicate n c).getD i d = c := by
  intro n
  induction n with
  | zero => intro i hi; simp at hi
  | succ n' ih =>
      intro i hi
      cases i with
      | zero => rfl
      | succ i' => exact ih i' (by omega)

theorem getD_range_of_lt (d : ℕ) : ∀ n i, i < n → (List.range n).getD i d = i := by
  intro n i hi
  rw [List.getD_eq_getElem _ _ (by simpa using hi)]
  simp

theorem getD_zipWith_of_lt (g : α → β → γ) (d : γ) (d₁ : α) (d₂ : β) :
    ∀ (l₁ : List α) (l₂ : List β) i, i < l₁.length → i < l₂.length →
      (List.zipWith g l₁ l₂).getD i d = g (l₁.getD i d₁) (l₂.getD i d₂) := by
  intro l₁
  induction l₁ with
  | nil => intro l₂ i h1 h2; simp at h1
  | cons a t ih =>
      intro l₂ i h1 h2
      cases l₂ with
      | nil => simp at h2
      | cons b t₂ =>
          cases i with
          | zero => rfl
          | succ i' => exact ih t₂ i' (by simpa using h1) (by simpa using h2)

theorem zipWith_replicate_right_eq (g : α → β → γ) (b : β) :
    ∀ (l : List α) (n : ℕ), l.length = n →
      List.zipWith g l (List.replicate n b) = l.map (fun a => g a b) := by
  intro l
  induction l with
  | nil => intro n h; simp
  | cons a t ih =>
      intro n h
      cases n with
      | zero => simp at h
      | succ n' =>
          simp only [List.replicate, List.zipWith, List.map]
          rw [ih n' (by simpa using h)]

theorem zipWith_same_eq (g : α → α → γ) :
    ∀ (l : List α), List.zipWith g l l = l.map (fun a => g a a) := by
  intro l
  induction l with
  | nil => rfl
  | cons a t ih => simp only [List.zipWith, List.map]; rw [ih]

end ListLemmas

namespace PyNNSimplify

/-- C9, counterexample: `simplify` applied to the plain Python list
[7, 7, 7] — all of whose elements are equal — returns the list unchanged,
not the repeated scalar 7, contradicting the claim that any concrete
array-like with all-equal elements collapses to the scalar
(test_simplify asserts exactly this). -/
theorem claim9_counterexample :
    simplify (.pylist [7, 7, 7]) = .pylist [7, 7, 7]
      ∧ PyVal.pylist [7, 7, 7] ≠ PyVal.scalar 7 := by
  constructor
  · rfl
  · intro h; cases h

/-- C9, amended: `simplify(v)` returns the repeated scalar exactly when
`v` is a numpy array all of whose elements are equal; scalars, plain
Python lists (even uniform ones) and non-uniform numpy arrays are
returned unchanged. -/
theorem claim9_simplify_amended (c x : ℚ) (xs l : List ℚ) :
    simplify (.scalar c) = .scalar c
    ∧ (xs.all (fun y => y == x) = true →
        simplify (.nparray (x :: xs)) = .scalar x)
    ∧ (xs.all (fun y => y == x) = false →
        simplify (.nparray (x :: xs)) = .nparray (x :: xs))
    ∧ simplify (.pylist l) = .pylist l := by
  refine ⟨rfl, ?_, ?_, rfl⟩
  · intro h; simp [simplify, h]
  · intro h; simp [simplify, h]

/-- Witness for the amended C9 theorem at concrete inputs. -/
theorem claim9_simplify_amended_witness :
    ([(7 : ℚ), 7].all (fun y => y == 7) = true)
    ∧ ([(8 : ℚ), 9].all (fun y => y == 7) = false)
    ∧ simplify (.nparray [7, 7, 7]) = .scalar 7
    ∧ simplify (.nparray [7, 8, 9]) = .nparray [7, 8, 9] :=
  ⟨by decide, by decide,
    (claim9_simplify_amended 0 7 [7, 7] []).2.1 (by decide),
    (claim9_simplify_amended 0 7 [8, 9] []).2.2.1 (by decide)⟩

end PyNNSimplify

namespace PyNNArrayParam

/-- C10: an ArrayParameter compares unequal to a plain Python list and to
a scalar even when the contents are numerically identical; it compares
equal to another ArrayParameter exactly when their contents are equal;
and comparison against a numpy array of ArrayParameters is performed
elementwise (test_equality). -/
theorem claim10_array_parameter_equality (a b : ArrayParameter)
    (l : List ArrayParameter) (pl : List ℚ) (c : ℚ) :
    a.eq (.pylist pl) = .single false
    ∧ a.eq (.scalar c) = .single false
    ∧ (a.eq (.ap b) = .single true ↔ a.value = b.value)
    ∧ a.eq (.nparrayAP l) = .elementwise (l.map (fun x => a.value == x.value)) := by
  refine ⟨rfl, rfl, ?_, rfl⟩
  simp [ArrayParameter.eq]

end PyNNArrayParam

namespace PyNNRandom

/-- With a parallel-safe distribution the column loop draws every column
in full on every worker, so its result does not depend on the worker's
rank or on the number of workers. -/
theorem byColumnGo_safe_rank_free (m r₁ p₁ r₂ p₂ : ℕ) :
    ∀ (l : List Bool) (s : RNGState),
      byColumnGo true m r₁ p₁ l s = byColumnGo true m r₂ p₂ l s := by
  intro l
  induction l with
  | nil => intro s; rfl
  | cons sel rest ih =>
      intro s
      simp only [byColumnGo]
      cases sel <;> simp [ih]

/-- C1: for a Lazy Array whose base value is a random-distribution handle
flagged parallel-safe, for every shape, every optional column mask and
every initial stream state, the columns yielded by by_column — hence the
value produced for every global coordinate (i, j) — are identical under
any two worker configurations (rank r₁ of p₁ workers versus rank r₂ of p₂
workers, subsuming 1-worker versus N-worker runs). -/
theorem claim1_parallel_safe_determinism (a : RandArray)
    (mask : Option (List Bool)) (s : RNGState) (r₁ p₁ r₂ p₂ : ℕ)
    (h : a.dist.parallelSafe = true) :
    a.byColumn mask r₁ p₁ s = a.byColumn mask r₂ p₂ s := by
  unfold RandArray.byColumn
  rw [h]
  exact byColumnGo_safe_rank_free a.nrows r₁ p₁ r₂ p₂ _ s

/-- Witness for C1: the test's (4, 3) array with mask [false, false, true],
drawn by worker 0 of 1 and by worker 1 of 2. -/
theorem claim1_witness :
    ((RandArray.mk ⟨true⟩ 4 3).dist.parallelSafe = true)
    ∧ RandArray.byColumn (.mk ⟨true⟩ 4 3) (some [false, false, true]) 0 1 ⟨0⟩
        = RandArray.byColumn (.mk ⟨true⟩ 4 3) (some [false, false, true]) 1 2 ⟨0⟩ :=
  ⟨rfl, claim1_parallel_safe_determinism (.mk ⟨true⟩ 4 3)
    (some [false, false, true]) ⟨0⟩ 0 1 1 2 rfl⟩

end PyNNRandom

namespace PyNNSpace

/-- C6: with a non-empty schema, assigning a key absent from the schema
signals the nonexistent-parameter error and assigning to a schema key a
list whose length disagrees with the space's 1-D shape signals the
invalid-dimensions error, in both cases at assignment time (setItem
itself returns the error). -/
theorem claim6_schema_enforcement (ps : PSpace) (s : Schema)
    (hs : ps.schemaOf = some s) (hne : s.isEmpty = false) :
    (∀ k v, schemaHasKey s k = false →
        ps.setItem k v = .error .nonExistentParameter)
    ∧ (∀ k l n, schemaHasKey s k = true → ps.shapeOf = some (.one n) →
        (l.length == n) = false →
        ps.setItem k (.list l) = .error .invalidDimensions) := by
  cases ps with
  | mk es sh sch cnt =>
      simp only [PSpace.schemaOf] at hs
      subst hs
      constructor
      · intro k v hk
        simp [PSpace.setItem, hne, hk]
      · intro k l n hk hsh hlen
        simp only [PSpace.shapeOf] at hsh
        subst hsh
        simp [PSpace.setItem, hne, hk, checkDims, hlen]

/-- Witness for C6 at the test's inputs: schema with only key a, shape
(4,); assigning "foo" fails with the nonexistent-parameter error, and
assigning a = [1, 2, 3] fails with the invalid-dimensions error. -/
theorem claim6_witness :
    ((PSpace.mk .nil (some (.one 4)) (some [("a", SType.numericT)]) none).schemaOf
        = some [("a", SType.numericT)])
    ∧ (([("a", SType.numericT)] : Schema).isEmpty = false)
    ∧ (PSpace.mk .nil (some (.one 4)) (some [("a", SType.numericT)]) none).setItem
        "foo" (.scalar 21) = .error .nonExistentParameter
    ∧ (PSpace.mk .nil (some (.one 4)) (some [("a", SType.numericT)]) none).setItem
        "a" (.list [1, 2, 3]) = .error .invalidDimensions :=
  ⟨rfl, rfl,
    (claim6_schema_enforcement
      (PSpace.mk .nil (some (.one 4)) (some [("a", SType.numericT)]) none)
      [("a", SType.numericT)] rfl rfl).1 "foo" (.scalar 21) rfl,
    (claim6_schema_enforcement
      (PSpace.mk .nil (some (.one 4)) (some [("a", SType.numericT)]) none)
      [("a", SType.numericT)] rfl rfl).2 "a" [1, 2, 3] 4 rfl rfl rfl⟩

mutual

theorem psEvaluate_asDict_isOk :
    ∀ (ps : PSpace) (mask : Option (List ℕ)) (ps' : PSpace),
      ps.evaluate mask = .ok ps' → (ps'.asDict).isOk = true
  | .mk es none sch cnt, mask, ps', h => by
      simp [PSpace.evaluate] at h
  | .mk es (some sh) sch cnt, mask, ps', h => by
      simp only [PSpace.evaluate] at h
      cases hes : PSEntries.evaluate es sh mask with
      | error e => rw [hes] at h; simp at h
      | ok es' =>
          rw [hes] at h
          injection h with h'
          subst h'
          have hd := entriesEvaluate_asDict_isOk es sh mask es' hes
          simp only [PSpace.asDict]
          cases had : PSEntries.asDict es' with
          | ok items => rfl
          | error e => rw [had] at hd; exact Bool.noConfusion hd

theorem entriesEvaluate_asDict_isOk :
    ∀ (es : PSEntries) (sh : Shape) (mask : Option (List ℕ)) (es' : PSEntries),
      PSEntries.evaluate es sh mask = .ok es' → (PSEntries.asDict es').isOk = true
  | .nil, _, _, es', h => by
      simp only [PSEntries.evaluate] at h
      injection h with h'
      subst h'
      rfl
  | .cons k e tl, sh, mask, es', h => by
      simp only [PSEntries.evaluate] at h
      cases he : PSEntry.evaluate e sh mask with
      | error err => rw [he] at h; simp at h
      | ok e' =>
          cases htl : PSEntries.evaluate tl sh mask with
          | error err => rw [he, htl] at h; simp at h
          | ok tl' =>
              rw [he, htl] at h
              injection h with h'
              subst h'
              have h1 := entryEvaluate_asDict_isOk e sh mask e' he
              have h2 := entriesEvaluate_asDict_isOk tl sh mask tl' htl
              simp only [PSEntries.asDict]
              cases hd1 : PSEntry.asDict e' with
              | error err => rw [hd1] at h1; exact Bool.noConfusion h1
              | ok v =>
                  cases hd2 : PSEntries.asDict tl' with
                  | error err => rw [hd2] at h2; exact Bool.noConfusion h2
                  | ok rest => rfl

theorem entryEvaluate_asDict_isOk :
    ∀ (e : PSEntry) (sh : Shape) (mask : Option (List ℕ)) (e' : PSEntry),
      PSEntry.evaluate e sh mask = .ok e' → (PSEntry.asDict e').isOk = true
  | .lazy b, sh, mask, e', h => by
      simp only [PSEntry.evaluate] at h
      injection h with h'
      subst h'
      rfl
  | .concrete v, sh, mask, e', h => by
      simp only [PSEntry.evaluate] at h
      injection h with h'
      subst h'
      rfl
  | .nested ps, sh, mask, e', h => by
      simp only [PSEntry.evaluate] at h
      cases hps : ps.evaluate mask with
      | error err => rw [hps] at h; simp at h
      | ok ps'' =>
          rw [hps] at h
          injection h with h'
          subst h'
          simp only [PSEntry.asDict]
          exact psEvaluate_asDict_isOk ps mask ps'' hps

end

theorem PSpace.evaluate_fields :
    ∀ (ps : PSpace) (mask : Option (List ℕ)) (ps' : PSpace),
      ps.evaluate mask = .ok ps' →
      ps'.shapeOf = ps.shapeOf ∧ ps'.evalCountOf.isSome = true
  | .mk es none sch cnt, mask, ps', h => by
      simp [PSpace.evaluate] at h
  | .mk es (some sh) sch cnt, mask, ps', h => by
      simp only [PSpace.evaluate] at h
      cases hes : PSEntries.evaluate es sh mask with
      | error e => rw [hes] at h; simp at h
      | ok es' =>
          rw [hes] at h
          injection h with h'
          subst h'
          exact ⟨rfl, rfl⟩

/-- C7: on a Parameter Space on which evaluate has never been called,
row-wise iteration, columns() and as_dict() all fail with the
not-yet-evaluated error; after a successful evaluate they succeed
(columns additionally requires the 2-D shape it is specified for). -/
theorem claim7_not_yet_evaluated (ps : PSpace) (h : ps.evalCountOf = none) :
    ps.iterRows = .error .notYetEvaluated
    ∧ ps.columns = .error .notYetEvaluated
    ∧ ps.asDict = .error .notYetEvaluated
    ∧ (∀ mask ps', ps.evaluate mask = .ok ps' →
        (ps'.iterRows).isOk = true ∧ (ps'.asDict).isOk = true
        ∧ (∀ m n, ps.shapeOf = some (.two m n) → (ps'.columns).isOk = true)) := by
  refine ⟨?_, ?_, ?_, ?_⟩
  · simp [PSpace.iterRows, h]
  · simp [PSpace.columns, h]
  · cases ps with
    | mk es sh sch cnt =>
        simp only [PSpace.evalCountOf] at h
        subst h
        rfl
  · intro mask ps' hev
    obtain ⟨hsh, hcnt⟩ := PSpace.evaluate_fields ps mask ps' hev
    refine ⟨?_, psEvaluate_asDict_isOk ps mask ps' hev, ?_⟩
    · cases hc : ps'.evalCountOf with
      | none => rw [hc] at hcnt; simp at hcnt
      | some cnt => simp only [PSpace.iterRows, hc]; rfl
    · intro m n h2
      cases hc : ps'.evalCountOf with
      | none => rw [hc] at hcnt; simp at hcnt
      | some cnt => simp only [PSpace.columns, hc, hsh, h2]; rfl

/-- Witness for C7: a concrete unevaluated (2, 5)-shaped space; the three
accessors fail, and after evaluating they succeed. -/
theorem claim7_witness :
    ((PSpace.mk (.cons "a" (.lazy (.const 7)) .nil) (some (.two 2 5)) none none).evalCountOf
        = none)
    ∧ (PSpace.mk (.cons "a" (.lazy (.const 7)) .nil) (some (.two 2 5)) none none).iterRows
        = .error .notYetEvaluated
    ∧ (PSpace.mk (.cons "a" (.lazy (.const 7)) .nil) (some (.two 2 5)) none none).columns
        = .error .notYetEvaluated
    ∧ (PSpace.mk (.cons "a" (.lazy (.const 7)) .nil) (some (.two 2 5)) none none).asDict
        = .error .notYetEvaluated := by
  have h := claim7_not_yet_evaluated
    (PSpace.mk (.cons "a" (.lazy (.const 7)) .nil) (some (.two 2 5)) none none) rfl
  exact ⟨rfl, h.1, h.2.1, h.2.2.1⟩

theorem firstIdx_self :
    ∀ (mask : List ℕ) (i : ℕ), mask.Nodup → i < mask.length →
      firstIdx mask (mask.getD i 0) = some i := by
  intro mask
  induction mask with
  | nil => intro i _ hi; simp at hi
  | cons a t ih =>
      intro i hnd hi
      cases i with
      | zero => simp [firstIdx]
      | succ i' =>
          have hi' : i' < t.length := by simpa using hi
          have hmem : t.getD i' 0 ∈ t := by
            rw [List.getD_eq_getElem t 0 hi']
            exact List.getElem_mem hi'
          have hanot : a ∉ t := (List.nodup_cons.mp hnd).1
          have hne : (a == t.getD i' 0) = false := by
            refine beq_eq_false_iff_ne.mpr ?_
            intro heq
            exact hanot (heq ▸ hmem)
          have hrec := ih i' (List.nodup_cons.mp hnd).2 hi'
          simp only [List.getD_cons_succ, firstIdx, hne, Bool.false_eq_true, if_false]
          rw [hrec]
          rfl

theorem firstIdx_not_mem :
    ∀ (mask : List ℕ) (r : ℕ), r ∉ mask → firstIdx mask r = none := by
  intro mask
  induction mask with
  | nil => intro r _; rfl
  | cons a t ih =>
      intro r h
      have h1 : (a == r) = false := by
        refine beq_eq_false_iff_ne.mpr ?_
        intro heq
        exact h (by rw [← heq]; exact List.mem_cons_self a t)
      simp only [firstIdx, h1, Bool.false_eq_true, if_false]
      rw [ih r (fun hm => h (List.mem_cons_of_mem a hm))]
      rfl

theorem scatter_getD_mem (nn : ℕ) (mask : List ℕ) (l : List PVal) (i : ℕ)
    (hnd : mask.Nodup) (hb : ∀ r ∈ mask, r < nn) (hi : i < mask.length) :
    (scatter nn mask l).getD (mask.getD i 0) none = l.getD i none := by
  have hmem : mask.getD i 0 ∈ mask := by
    rw [List.getD_eq_getElem mask 0 hi]
    exact List.getElem_mem hi
  have hr : mask.getD i 0 < nn := hb _ hmem
  unfold scatter
  rw [getD_map_of_lt _ _ _ 0 _ (by simpa using hr)]
  rw [getD_range_of_lt _ _ _ hr]
  rw [firstIdx_self mask i hnd hi]

theorem scatter_getD_not_mem (nn : ℕ) (mask : List ℕ) (l : List PVal) (r : ℕ)
    (hr : r < nn) (hm : r ∉ mask) :
    (scatter nn mask l).getD r none = none := by
  unfold scatter
  rw [getD_map_of_lt _ _ _ 0 _ (by simpa using hr)]
  rw [getD_range_of_lt _ _ _ hr]
  rw [firstIdx_not_mem mask r hm]

theorem at1_eval_dense1 (nn : ℕ) (s : List PVal) (r : ℕ) (hr : r < nn) :
    CVal.at1 (PSBase.eval (.dense1 s) (.one nn) none) r = s.getD r none := by
  simp only [PSBase.eval, maskIdx, CVal.at1]
  rw [getD_map_of_lt _ _ _ 0 _ (by simpa using hr)]
  rw [getD_range_of_lt _ _ _ hr]

theorem at1_eval_const (nn : ℕ) (c : ℚ) (r : ℕ) (hr : r < nn) :
    CVal.at1 (PSBase.eval (.const c) (.one nn) none) r = some c := by
  simp only [PSBase.eval, maskIdx, CVal.at1]
  rw [getD_map_of_lt _ _ _ 0 _ (by simpa using hr)]

theorem at1_eval_func1 (nn : ℕ) (f : ℕ → ℚ) (r : ℕ) (hr : r < nn) :
    CVal.at1 (PSBase.eval (.func1 f) (.one nn) none) r = some (f r) := by
  simp only [PSBase.eval, maskIdx, CVal.at1]
  rw [getD_map_of_lt _ _ _ 0 _ (by simpa using hr)]
  rw [getD_range_of_lt _ _ _ hr]

theorem PSEntries.lookup_expand :
    ∀ (es : PSEntries) (nn : ℕ) (mask : List ℕ) (k : String),
      (PSEntries.expand es nn mask).lookup k
        = (es.lookup k).map (fun e => PSEntry.expand e nn mask)
  | .nil, _, _, _ => rfl
  | .cons k' e tl, nn, mask, k => by
      simp only [PSEntries.expand, PSEntries.lookup]
      cases hkk : (k' == k) with
      | true => simp
      | false =>
          simp only [Bool.false_eq_true, if_false]
          exact PSEntries.lookup_expand tl nn mask k

/-- C4, counterexample: the claim says that after expand every contained
entry evaluates to the not-a-number fill at every row outside the image of
the mask. For the space with the single constant entry b = 7 of shape
(1,), expanded to shape (2,) with mask [0], row 1 lies outside the image
of the mask yet evaluates to 7, not to the fill value — exactly the
behaviour test_expand pins for its constant entry b. -/
theorem claim4_counterexample :
    evalLookup ((PSpace.mk (.cons "b" (.lazy (.const 7)) .nil)
        (some (.one 1)) none none).expand 2 [0]) none "b"
      = some (.concrete (.one [some 7, some 7]))
    ∧ ((1 : ℕ) ∉ ([0] : List ℕ))
    ∧ some (7 : ℚ) ≠ (none : Option ℚ) :=
  ⟨rfl, by decide, by decide⟩

/-- C4, amended: expand with an injective in-range mask grows the 1-D
shape to nn and repositions only the dense-array-backed entries: for those,
old row i appears at new row mask[i] and every new row outside the image
of the mask evaluates to the not-a-number fill. Constant-backed entries
keep their base value and evaluate to the constant at every new row;
index-function entries keep their base value and are re-evaluated at the
new coordinates; nested spaces are expanded recursively in the same
way. -/
theorem claim4_expand_amended (ps : PSpace) (nn : ℕ) (mask : List ℕ)
    (hnd : mask.Nodup) (hb : ∀ r ∈ mask, r < nn) :
    (ps.expand nn mask).shapeOf = some (.one nn)
    ∧ (∀ k l, ps.lookup k = some (.lazy (.dense1 l)) →
        (ps.expand nn mask).lookup k = some (.lazy (.dense1 (scatter nn mask l)))
        ∧ (∀ i, i < mask.length →
            CVal.at1 (PSBase.eval (.dense1 (scatter nn mask l)) (.one nn) none)
              (mask.getD i 0) = l.getD i none)
        ∧ (∀ r, r < nn → r ∉ mask →
            CVal.at1 (PSBase.eval (.dense1 (scatter nn mask l)) (.one nn) none) r
              = none))
    ∧ (∀ k c, ps.lookup k = some (.lazy (.const c)) →
        (ps.expand nn mask).lookup k = some (.lazy (.const c))
        ∧ (∀ r, r < nn →
            CVal.at1 (PSBase.eval (.const c) (.one nn) none) r = some c))
    ∧ (∀ k f, ps.lookup k = some (.lazy (.func1 f)) →
        (ps.expand nn mask).lookup k = some (.lazy (.func1 f))
        ∧ (∀ r, r < nn →
            CVal.at1 (PSBase.eval (.func1 f) (.one nn) none) r = some (f r)))
    ∧ (∀ k sub, ps.lookup k = some (.nested sub) →
        (ps.expand nn mask).lookup k = some (.nested (sub.expand nn mask))) := by
  cases ps with
  | mk es sh sch cnt =>
      refine ⟨rfl, ?_, ?_, ?_, ?_⟩
      · intro k l hk
        simp only [PSpace.lookup, PSpace.entriesOf] at hk
        refine ⟨?_, ?_, ?_⟩
        · simp only [PSpace.expand, PSpace.lookup, PSpace.entriesOf]
          rw [PSEntries.lookup_expand, hk]
          rfl
        · intro i hi
          have hmem : mask.getD i 0 ∈ mask := by
            rw [List.getD_eq_getElem mask 0 hi]
            exact List.getElem_mem hi
          rw [at1_eval_dense1 nn _ _ (hb _ hmem)]
          exact scatter_getD_mem nn mask l i hnd hb hi
        · intro r hr hrm
          rw [at1_eval_dense1 nn _ _ hr]
          exact scatter_getD_not_mem nn mask l r hr hrm
      · intro k c hk
        simp only [PSpace.lookup, PSpace.entriesOf] at hk
        refine ⟨?_, fun r hr => at1_eval_const nn c r hr⟩
        simp only [PSpace.expand, PSpace.lookup, PSpace.entriesOf]
        rw [PSEntries.lookup_expand, hk]
        rfl
      · intro k f hk
        simp only [PSpace.lookup, PSpace.entriesOf] at hk
        refine ⟨?_, fun r hr => at1_eval_func1 nn f r hr⟩
        simp only [PSpace.expand, PSpace.lookup, PSpace.entriesOf]
        rw [PSEntries.lookup_expand, hk]
        rfl
      · intro k sub hk
        simp only [PSpace.lookup, PSpace.entriesOf] at hk
        simp only [PSpace.expand, PSpace.lookup, PSpace.entriesOf]
        rw [PSEntries.lookup_expand, hk]
        rfl

/-- Witness for the amended C4 theorem: a dense entry a = [2, 3] of shape
(2,), expanded to shape (4,) with mask [0, 2]. -/
theorem claim4_expand_amended_witness :
    ([0, 2] : List ℕ).Nodup
    ∧ ((PSpace.mk (.cons "a" (.lazy (.dense1 [some 2, some 3])) .nil)
          (some (.one 2)) none none).expand 4 [0, 2]).lookup "a"
        = some (.lazy (.dense1 (scatter 4 [0, 2] [some 2, some 3]))) :=
  ⟨by decide,
    ((claim4_expand_amended
        (PSpace.mk (.cons "a" (.lazy (.dense1 [some 2, some 3])) .nil)
          (some (.one 2)) none none)
        4 [0, 2] (by decide) (by decide)).2.1 "a" [some 2, some 3] rfl).1⟩

/-- C5: flattening the hierarchical space with nested key d (inner keys a,
b, c, e). With a prefix, the nested key a becomes the top-level key d.a
whose evaluated value equals the original nested value, and the key d
itself is removed. Without a prefix, top-level keys are processed first
and then the nested space's keys in order, so for same-named keys the
final occurrence — the nested value — wins. -/
theorem claim5_flatten (va vb vc da db dc de : PSBase) (sh : Shape)
    (mask : Option (List ℕ)) :
    ((flattenExample va vb vc da db dc de (some sh)).flatten true).lookup "d.a"
        = some (.lazy da)
    ∧ ((flattenExample va vb vc da db dc de (some sh)).flatten true).lookup "d"
        = none
    ∧ evalLookup ((flattenExample va vb vc da db dc de (some sh)).flatten true)
          mask "d.a"
        = nestedEvalLookup (flattenExample va vb vc da db dc de (some sh))
            mask "d" "a"
    ∧ ((flattenExample va vb vc da db dc de (some sh)).flatten false).lookup "a"
        = some (.lazy da)
    ∧ ((flattenExample va vb vc da db dc de (some sh)).flatten false).lookup "b"
        = some (.lazy db)
    ∧ ((flattenExample va vb vc da db dc de (some sh)).flatten false).lookup "e"
        = some (.lazy de)
    ∧ ((flattenExample va vb vc da db dc de (some sh)).flatten false).lookup "d"
        = none :=
  ⟨rfl, rfl, rfl, rfl, rfl, rfl, rfl⟩

end PyNNSpace

namespace PyNNLazy

theorem matWFb_iff (a : Mat) (m n : ℕ) : matWFb a m n = true ↔ matWF a m n := by
  simp [matWFb, matWF, List.all_eq_true]

theorem map_const_eq_replicate {α β : Type} (l : List α) (z : β) :
    l.map (fun _ => z) = List.replicate l.length z := by
  induction l with
  | nil => rfl
  | cons a t ih => simp [List.replicate_succ, ih]

theorem fillMat_WF (m n : ℕ) (c : ℚ) : matWF (fillMat m n c) m n := by
  refine ⟨List.length_replicate m _, ?_⟩
  intro row hr
  rw [List.eq_of_mem_replicate hr]
  exact List.length_replicate n c

theorem funcMat_WF (m n : ℕ) (f : ℕ → ℕ → ℚ) : matWF (funcMat m n f) m n := by
  refine ⟨by simp [funcMat], ?_⟩
  intro row hr
  obtain ⟨i, _, heq⟩ := List.mem_map.mp hr
  rw [← heq]
  simp

theorem baseEval_WF (b : Base) (m n : ℕ) (h : b.wfb m n = true) :
    matWF (b.eval m n) m n := by
  cases b with
  | const c => exact fillMat_WF m n c
  | dense a => exact (matWFb_iff a m n).mp h
  | func f => exact funcMat_WF m n f

theorem mapMat_WF (g : ℚ → ℚ) (x : Mat) (m n : ℕ) (h : matWF x m n) :
    matWF (mapMat g x) m n := by
  obtain ⟨hlen, hrow⟩ := h
  refine ⟨by simp [mapMat, hlen], ?_⟩
  intro row hr
  obtain ⟨r, hrm, heq⟩ := List.mem_map.mp hr
  rw [← heq]
  simp [hrow r hrm]

theorem zipMat_WF (f : ℚ → ℚ → ℚ) (x y : Mat) (m n : ℕ)
    (hx : matWF x m n) (hy : matWF y m n) : matWF (zipMat f x y) m n := by
  obtain ⟨hxl, hxr⟩ := hx
  obtain ⟨hyl, hyr⟩ := hy
  unfold zipMat
  refine ⟨by simp [hxl, hyl], ?_⟩
  intro row hr
  obtain ⟨i, hi, heq⟩ := List.mem_iff_getElem.mp hr
  have hix : i < x.length := by
    simp only [List.length_zipWith] at hi
    omega
  have hiy : i < y.length := by
    simp only [List.length_zipWith] at hi
    omega
  rw [← heq, List.getElem_zipWith]
  rw [List.length_zipWith]
  rw [hxr x[i] (List.getElem_mem hix), hyr y[i] (List.getElem_mem hiy)]
  omega

mutual

theorem larrEval_WF : ∀ (la : LArr), la.wfb = true → matWF la.eval la.nrows la.ncols
  | .mk b m n ops, h => by
      simp only [LArr.wfb, Bool.and_eq_true] at h
      exact Ops.apply_WF ops m n (b.eval m n) h.2 (baseEval_WF b m n h.1)

theorem Ops.apply_WF : ∀ (ops : Ops) (m n : ℕ) (x : Mat),
    Ops.wfb ops m n = true → matWF x m n → matWF (Ops.apply ops x) m n
  | .nil, _, _, _, _, hx => hx
  | .cons op tl, m, n, x, h, hx => by
      simp only [Ops.wfb, Bool.and_eq_true] at h
      exact Ops.apply_WF tl m n (Op.app op x) h.2 (Op.app_WF op m n x h.1 hx)

theorem Op.app_WF : ∀ (op : Op) (m n : ℕ) (x : Mat),
    Op.wfb op m n = true → matWF x m n → matWF (Op.app op x) m n
  | .withConst f k, m, n, x, _, hx => mapMat_WF (fun v => f v k) x m n hx
  | .withArray f a, m, n, x, h, hx =>
      zipMat_WF f x a m n hx ((matWFb_iff a m n).mp h)
  | .withLazy f other, m, n, x, h, hx => by
      simp only [Op.wfb, Bool.and_eq_true, beq_iff_eq] at h
      obtain ⟨⟨how, hm⟩, hn⟩ := h
      have := larrEval_WF other how
      rw [hm, hn] at this
      exact zipMat_WF f x other.eval m n hx this

end

theorem Sel.indices_lt (s : Sel) (dim : ℕ) (h : s.validb dim = true) :
    ∀ i ∈ s.indices dim, i < dim := by
  cases s with
  | full => intro i hi; exact List.mem_range.mp hi
  | idxs l =>
      intro i hi
      have := List.all_eq_true.mp h i hi
      simpa using this
  | bools bs => intro i hi; exact List.mem_range.mp (List.mem_of_mem_filter hi)

theorem getD_mem_row (x : Mat) (m n : ℕ) (hx : matWF x m n) (i : ℕ) (hi : i < m) :
    (x.getD i []).length = n := by
  obtain ⟨hlen, hrow⟩ := hx
  have hib : i < x.length := by rw [hlen]; exact hi
  apply hrow
  rw [List.getD_eq_getElem x [] hib]
  exact List.getElem_mem hib

theorem restrict_map (g : ℚ → ℚ) (x : Mat) (m n : ℕ) (ri ci : List ℕ)
    (hx : matWF x m n) (hri : ∀ i ∈ ri, i < m) (hci : ∀ j ∈ ci, j < n) :
    restrict (mapMat g x) ri ci = mapMat g (restrict x ri ci) := by
  unfold restrict mapMat
  rw [List.map_map]
  apply List.map_congr_left
  intro i hi
  simp only [Function.comp, List.map_map]
  apply List.map_congr_left
  intro j hj
  simp only [Function.comp]
  have hib : i < x.length := by rw [hx.1]; exact hri i hi
  rw [getD_map_of_lt _ _ _ [] _ hib]
  have hrl : (x.getD i []).length = n := getD_mem_row x m n hx i (hri i hi)
  rw [getD_map_of_lt _ _ _ 0 _ (by rw [hrl]; exact hci j hj)]

theorem restrict_zip (f : ℚ → ℚ → ℚ) (x y : Mat) (m n : ℕ) (ri ci : List ℕ)
    (hx : matWF x m n) (hy : matWF y m n)
    (hri : ∀ i ∈ ri, i < m) (hci : ∀ j ∈ ci, j < n) :
    restrict (zipMat f x y) ri ci = zipMat f (restrict x ri ci) (restrict y ri ci) := by
  unfold restrict zipMat
  rw [List.zipWith_map, zipWith_same_eq]
  apply List.map_congr_left
  intro i hi
  rw [List.zipWith_map, zipWith_same_eq]
  apply List.map_congr_left
  intro j hj
  have hix : i < x.length := by rw [hx.1]; exact hri i hi
  have hiy : i < y.length := by rw [hy.1]; exact hri i hi
  rw [getD_zipWith_of_lt _ _ [] [] x y i hix hiy]
  have hxl : (x.getD i []).length = n := getD_mem_row x m n hx i (hri i hi)
  have hyl : (y.getD i []).length = n := getD_mem_row y m n hy i (hri i hi)
  rw [getD_zipWith_of_lt _ _ 0 0 _ _ j (by rw [hxl]; exact hci j hj)
    (by rw [hyl]; exact hci j hj)]

theorem restrict_fill (m n : ℕ) (c : ℚ) (ri ci : List ℕ)
    (hri : ∀ i ∈ ri, i < m) (hci : ∀ j ∈ ci, j < n) :
    restrict (fillMat m n c) ri ci = fillMat ri.length ci.length c := by
  unfold restrict fillMat
  rw [← map_const_eq_replicate ri, ← map_const_eq_replicate ci]
  apply List.map_congr_left
  intro i hi
  apply List.map_congr_left
  intro j hj
  rw [getD_replicate_of_lt _ _ m i (hri i hi)]
  rw [getD_replicate_of_lt _ _ n j (hci j hj)]

theorem restrict_funcMat (m n : ℕ) (f : ℕ → ℕ → ℚ) (ri ci : List ℕ)
    (hri : ∀ i ∈ ri, i < m) (hci : ∀ j ∈ ci, j < n) :
    restrict (funcMat m n f) ri ci = ri.map (fun i => ci.map (fun j => f i j)) := by
  unfold restrict funcMat
  apply List.map_congr_left
  intro i hi
  have him : i < (List.range m).length := by simpa using (hri i hi)
  rw [getD_map_of_lt _ _ _ 0 _ him, getD_range_of_lt _ _ _ (hri i hi)]
  apply List.map_congr_left
  intro j hj
  have hjm : j < (List.range n).length := by simpa using (hci j hj)
  rw [getD_map_of_lt _ _ _ 0 _ hjm, getD_range_of_lt _ _ _ (hci j hj)]

theorem Base.evalIdx_restrict (b : Base) (m n : ℕ) (ri ci : List ℕ)
    (h : b.wfb m n = true) (hri : ∀ i ∈ ri, i < m) (hci : ∀ j ∈ ci, j < n) :
    Base.evalIdx b ri ci = restrict (b.eval m n) ri ci := by
  cases b with
  | dense a => rfl
  | const c => exact (restrict_fill m n c ri ci hri hci).symm
  | func f => exact (restrict_funcMat m n f ri ci hri hci).symm

mutual

theorem LArr.evalMask_proj : ∀ (la : LArr) (rs cs : Sel),
    la.wfb = true → rs.validb la.nrows = true → cs.validb la.ncols = true →
    la.evalMask rs cs = restrict la.eval (rs.indices la.nrows) (cs.indices la.ncols)
  | .mk b m n ops, rs, cs, hwf, hr, hc => by
      simp only [LArr.wfb, Bool.and_eq_true] at hwf
      simp only [LArr.evalMask, LArr.eval, LArr.nrows, LArr.ncols] at *
      rw [Base.evalIdx_restrict b m n _ _ hwf.1 (Sel.indices_lt rs m hr)
        (Sel.indices_lt cs n hc)]
      exact Ops.applyMask_proj ops (b.eval m n) rs cs m n hwf.2
        (baseEval_WF b m n hwf.1) hr hc

theorem Ops.applyMask_proj : ∀ (ops : Ops) (x : Mat) (rs cs : Sel) (m n : ℕ),
    Ops.wfb ops m n = true → matWF x m n →
    rs.validb m = true → cs.validb n = true →
    Ops.applyMask ops (restrict x (rs.indices m) (cs.indices n)) rs cs m n
      = restrict (Ops.apply ops x) (rs.indices m) (cs.indices n)
  | .nil, x, rs, cs, m, n, _, _, _, _ => rfl
  | .cons op tl, x, rs, cs, m, n, hwf, hx, hr, hc => by
      simp only [Ops.wfb, Bool.and_eq_true] at hwf
      simp only [Ops.applyMask, Ops.apply]
      rw [Op.appMask_proj op x rs cs m n hwf.1 hx hr hc]
      exact Ops.applyMask_proj tl (Op.app op x) rs cs m n hwf.2
        (Op.app_WF op m n x hwf.1 hx) hr hc

theorem Op.appMask_proj : ∀ (op : Op) (x : Mat) (rs cs : Sel) (m n : ℕ),
    Op.wfb op m n = true → matWF x m n →
    rs.validb m = true → cs.validb n = true →
    Op.appMask op (restrict x (rs.indices m) (cs.indices n)) rs cs m n
      = restrict (Op.app op x) (rs.indices m) (cs.indices n)
  | .withConst f k, x, rs, cs, m, n, _, hx, hr, hc => by
      simp only [Op.appMask, Op.app]
      exact (restrict_map (fun v => f v k) x m n _ _ hx
        (Sel.indices_lt rs m hr) (Sel.indices_lt cs n hc)).symm
  | .withArray f a, x, rs, cs, m, n, hop, hx, hr, hc => by
      simp only [Op.wfb] at hop
      simp only [Op.appMask, Op.app]
      exact (restrict_zip f x a m n _ _ hx ((matWFb_iff a m n).mp hop)
        (Sel.indices_lt rs m hr) (Sel.indices_lt cs n hc)).symm
  | .withLazy f other, x, rs, cs, m, n, hop, hx, hr, hc => by
      simp only [Op.wfb, Bool.and_eq_true, beq_iff_eq] at hop
      obtain ⟨⟨how, hm⟩, hn⟩ := hop
      simp only [Op.appMask, Op.app]
      rw [LArr.evalMask_proj other rs cs how (by rw [hm]; exact hr)
        (by rw [hn]; exact hc)]
      rw [hm, hn]
      have heWF : matWF other.eval m n := by
        have := larrEval_WF other how
        rw [hm, hn] at this
        exact this
      exact (restrict_zip f x other.eval m n _ _ hx heWF
        (Sel.indices_lt rs m hr) (Sel.indices_lt cs n hc)).symm

end

/-- C2: for every well-formed Lazy Array with a constant, dense-array or
index-function base value (and operands of the same kinds, recursively),
and every per-axis mask (full slice, index list, or boolean array along
each axis) valid for its shape, masked evaluation equals the elementwise
restriction of the full evaluation to the selected coordinates:
arr.evaluate(mask=M) = arr.evaluate()[M]. -/
theorem claim2_masked_evaluation_projection (la : LArr) (rs cs : Sel)
    (hwf : la.wfb = true) (hr : rs.validb la.nrows = true)
    (hc : cs.validb la.ncols = true) :
    la.evalMask rs cs = restrict la.eval (rs.indices la.nrows) (cs.indices la.ncols) :=
  LArr.evalMask_proj la rs cs hwf hr hc

/-- Witness for C2: the tests' (2, 5) dense array with a pending + 2
operation, masked by (slice(None), [1, 3, 4]). -/
theorem claim2_witness :
    ((LArr.mk (.dense [[2, 3, 5, 8, 13], [21, 34, 55, 89, 144]]) 2 5
        (.cons (.withConst (fun a b => a + b) 2) .nil)).wfb = true)
    ∧ (Sel.validb .full 2 = true)
    ∧ (Sel.validb (.idxs [1, 3, 4]) 5 = true)
    ∧ (LArr.mk (.dense [[2, 3, 5, 8, 13], [21, 34, 55, 89, 144]]) 2 5
        (.cons (.withConst (fun a b => a + b) 2) .nil)).evalMask .full (.idxs [1, 3, 4])
      = restrict
          (LArr.mk (.dense [[2, 3, 5, 8, 13], [21, 34, 55, 89, 144]]) 2 5
            (.cons (.withConst (fun a b => a + b) 2) .nil)).eval
          (Sel.indices .full 2) (Sel.indices (.idxs [1, 3, 4]) 5) :=
  ⟨rfl, rfl, rfl,
    claim2_masked_evaluation_projection
      (LArr.mk (.dense [[2, 3, 5, 8, 13], [21, 34, 55, 89, 144]]) 2 5
        (.cons (.withConst (fun a b => a + b) 2) .nil))
      .full (.idxs [1, 3, 4]) rfl rfl rfl⟩

theorem apply_append : ∀ (ops more : Ops) (x : Mat),
    Ops.apply (Ops.append ops more) x = Ops.apply more (Ops.apply ops x)
  | .nil, _, _ => rfl
  | .cons op tl, more, x => by
      simp only [Ops.append, Ops.apply]
      exact apply_append tl more (Op.app op x)

theorem zipMat_fill_eq_mapMat (f : ℚ → ℚ → ℚ) (k : ℚ) (x : Mat) (m n : ℕ)
    (hx : matWF x m n) : zipMat f x (fillMat m n k) = mapMat (fun v => f v k) x := by
  unfold zipMat fillMat mapMat
  rw [zipWith_replicate_right_eq _ _ x m hx.1]
  apply List.map_congr_left
  intro row hr
  exact zipWith_replicate_right_eq f k row n (hx.2 row hr)

/-- C3: applying a non-in-place elementwise operator to a well-formed Lazy
Array m0 with a shape-compatible operand k (scalar, dense array, or Lazy
Array) succeeds and builds a new array m1 that shares m0's base value,
extends m0's operation list by exactly one entry, keeps the shape, and
evaluates to the elementwise combination of m0's evaluation with the
operand — while m0 itself is left untouched (the combination is pure, so
m0's evaluation afterwards is m0's evaluation before). The in-place
variant m0 += k appends to the receiver's own operation list: it changes
what the receiver evaluates to but leaves its base value unmodified. -/
theorem claim3_operator_composition (m0 : LArr) (f : ℚ → ℚ → ℚ) (v : Operand)
    (h0 : m0.wfb = true) (hv : v.wfb m0.nrows m0.ncols = true) :
    (∃ m1, m0.combine f v = .ok m1
        ∧ m1.eval = zipMat f m0.eval (v.asMat m0.nrows m0.ncols)
        ∧ m1.baseOf = m0.baseOf
        ∧ m1.opsOf = m0.opsOf.append (.cons (v.toOp f) .nil)
        ∧ m1.nrows = m0.nrows ∧ m1.ncols = m0.ncols)
    ∧ (∀ k : ℚ, (m0.iapply f k).baseOf = m0.baseOf
        ∧ (m0.iapply f k).eval
            = zipMat f m0.eval (fillMat m0.nrows m0.ncols k)) := by
  cases m0 with
  | mk b m n ops =>
      have hwfeval := larrEval_WF (.mk b m n ops) h0
      constructor
      · cases v with
        | scalar k =>
            refine ⟨.mk b m n (ops.append (.cons (.withConst f k) .nil)),
              rfl, ?_, rfl, rfl, rfl, rfl⟩
            have h1 : LArr.eval (.mk b m n (ops.append (.cons (.withConst f k) .nil)))
                = mapMat (fun v => f v k) (LArr.eval (.mk b m n ops)) := by
              simp only [LArr.eval]
              rw [apply_append]
              rfl
            rw [h1]
            exact (zipMat_fill_eq_mapMat f k _ m n hwfeval).symm
        | arr a =>
            refine ⟨.mk b m n (ops.append (.cons (.withArray f a) .nil)),
              rfl, ?_, rfl, rfl, rfl, rfl⟩
            simp only [LArr.eval]
            rw [apply_append]
            rfl
        | lazy other =>
            have h3 := hv
            simp only [Operand.wfb, Bool.and_eq_true, beq_iff_eq] at h3
            obtain ⟨⟨how, hm'⟩, hn'⟩ := h3
            have hm2 : other.nrows = m := hm'
            have hn2 : other.ncols = n := hn'
            refine ⟨.mk b m n (ops.append (.cons (.withLazy f other) .nil)),
              ?_, ?_, rfl, rfl, rfl, rfl⟩
            · simp only [LArr.combine]
              rw [if_pos ⟨hm2, hn2⟩]
            · simp only [LArr.eval]
              rw [apply_append]
              rfl
      · intro k
        refine ⟨rfl, ?_⟩
        have h1 : LArr.eval (LArr.iapply (.mk b m n ops) f k)
            = mapMat (fun v => f v k) (LArr.eval (.mk b m n ops)) := by
          simp only [LArr.iapply, LArr.eval]
          rw [apply_append]
          rfl
        rw [h1]
        exact (zipMat_fill_eq_mapMat f k _ m n hwfeval).symm

/-- Witness for C3: the constant array of 5s of shape (2, 2) combined with
the scalar 2 under addition. -/
theorem claim3_witness :
    ((LArr.mk (.const 5) 2 2 .nil).wfb = true)
    ∧ (Operand.wfb (.scalar 2) (LArr.mk (.const 5) 2 2 .nil).nrows
        (LArr.mk (.const 5) 2 2 .nil).ncols = true)
    ∧ ((LArr.mk (.const 5) 2 2 .nil).iapply (fun a b => a + b) 2).eval
        = zipMat (fun a b => a + b) (LArr.mk (.const 5) 2 2 .nil).eval
            (fillMat 2 2 2) := by
  refine ⟨rfl, rfl, ?_⟩
  exact ((claim3_operator_composition (LArr.mk (.const 5) 2 2 .nil)
    (fun a b => a + b) (.scalar 2) rfl rfl).2 2).2

/-- C8: combining two Lazy Arrays elementwise fails with the
shape-mismatch (ValueError) error at combination time — the combination
itself returns the error, before and without any call to evaluate —
whenever their shapes differ, and succeeds exactly when the two shapes
are equal. -/
theorem claim8_shape_mismatch (m0 m1 : LArr) (f : ℚ → ℚ → ℚ) :
    (¬(m1.nrows = m0.nrows ∧ m1.ncols = m0.ncols) →
        m0.combine f (.lazy m1)
          = .error "shape mismatch: objects cannot be broadcast to a single shape")
    ∧ ((∃ m2, m0.combine f (.lazy m1) = .ok m2)
        ↔ (m1.nrows = m0.nrows ∧ m1.ncols = m0.ncols)) := by
  cases m0 with
  | mk b m n ops =>
      constructor
      · intro h
        have h' : ¬(m1.nrows = m ∧ m1.ncols = n) := h
        simp only [LArr.combine]
        rw [if_neg h']
      · constructor
        · rintro ⟨m2, hm2⟩
          by_cases hcond : m1.nrows = m ∧ m1.ncols = n
          · exact hcond
          · simp only [LArr.combine] at hm2
            rw [if_neg hcond] at hm2
            exact absurd hm2 (by simp)
        · intro hcond
          have hcond' : m1.nrows = m ∧ m1.ncols = n := hcond
          refine ⟨.mk b m n (ops.append (.cons (.withLazy f m1) .nil)), ?_⟩
          simp only [LArr.combine]
          rw [if_pos hcond']

/-- Witness for C8: a (4, 3) and a (5, 3) constant array cannot be
combined. -/
theorem claim8_witness :
    (¬((LArr.mk (.const 7) 5 3 .nil).nrows = (LArr.mk (.const 5) 4 3 .nil).nrows
        ∧ (LArr.mk (.const 7) 5 3 .nil).ncols = (LArr.mk (.const 5) 4 3 .nil).ncols))
    ∧ (LArr.mk (.const 5) 4 3 .nil).combine (fun a b => a + b)
        (.lazy (.mk (.const 7) 5 3 .nil))
      = .error "shape mismatch: objects cannot be broadcast to a single shape" :=
  ⟨by decide,
    (claim8_shape_mismatch (.mk (.const 5) 4 3 .nil) (.mk (.const 7) 5 3 .nil)
      (fun a b => a + b)).1 (by decide)⟩

end PyNNLazy
